import Mathlib

set_option maxRecDepth 100000

/-!
Verification development for the `fix_unwrap_or.py` maintenance script
(`crates/zjj-core/.../staggered-11/fix_unwrap_or.py`).

The script holds a fixed catalogue `PATTERNS` of regex rules and a
function `fix_file` that applies every rule, in catalogue order, to a
file's full text.  We embed the text-rewriting core shallowly:

* file content is a `List Char`;
* each regex of the catalogue is deterministic (no real backtracking is
  possible: the greedy classes `[^)]+` and `\d+` cannot shrink past a
  mandatory terminator), so every rule is embedded as an exact
  prefix-matching function `matchAt`;
* `re.sub` / `re.findall` / `re.finditer` share Python's scan
  discipline — leftmost match, continue after the match end, advance one
  character on failure — embedded as `subAll`, `countMatches`,
  `findIter` (structurally recursive on a fuel bounded by the text
  length, so that everything evaluates by kernel reduction);
* the filesystem side (`main`) is abstracted to a flag for the root
  directory's existence plus the list of discovered file contents.

Python's `\d` is Unicode-aware; the texts this development reasons
about are ASCII, and `\d` is embedded as `Char.isDigit`.
-/

/-- A rule of the `PATTERNS` catalogue (fix_unwrap_or.py lines 9-89).
The source stores 2-tuples `(pattern, replacement)` — all of whose
patterns end with the negative lookahead `(?![.])` except the first —
and one 3-tuple `(pattern, lambda, True)`:

* `tryExists` is the unguarded first rule
  `\.try_exists\(([^)]+)\)\.await\.unwrap_or\(false\)`;
* `lit pat repl` is a guarded literal rule `pat(?![.])` with literal
  replacement `repl` (rules 2-14 of the catalogue);
* `getRange` is the 3-tuple callback rule
  `\.get\((\d+)\.\.(\d+)\)\.unwrap_or\(&\[\]\)`. -/
inductive Rule where
  | tryExists : Rule
  | lit (pat repl : String) : Rule
  | getRange : Rule
deriving DecidableEq

/-- The third component of the source tuple: `True` marks the callback
rule (`is_function` in `fix_file`). -/
def Rule.isFunction : Rule → Bool
  | Rule.getRange => true
  | _ => false

/-- Literal prefix `\.try_exists\(` of the first rule. -/
def tryHead : List Char := ".try_exists(".toList

/-- Literal part `\)\.await\.unwrap_or\(false\)` that must follow the
captured group of the first rule. -/
def tryTail : List Char := ").await.unwrap_or(false)".toList

/-- Replacement `.try_exists(\1).await.map_or(false, |v| v)` of the
first rule, with `g` the text captured by `([^)]+)`. -/
def tryRepl (g : List Char) : List Char :=
  ".try_exists(".toList ++ g ++ ").await.map_or(false, |v| v)".toList

/-- Literal prefix `\.get\(` of the callback rule. -/
def getHead : List Char := ".get(".toList

/-- Literal part `\)\.unwrap_or\(&\[\]\)` closing the callback rule. -/
def getTail : List Char := ").unwrap_or(&[])".toList

/-- The two literal dots `\.\.` between the captured bounds. -/
def dotDot : List Char := "..".toList

/-- The callback replacement (fix_unwrap_or.py line 86): the f-string
`f'{{match .get({A}..{B}) {{ Some(slice) => slice, None => &[], }}'`
rendered with the captured digit groups `a` and `b`. -/
def getRepl (a b : List Char) : List Char :=
  "\x7bmatch .get(".toList ++ a ++ "..".toList ++ b ++
    ") \x7b Some(slice) => slice, None => &[], \x7d".toList

/-- The rule catalogue, in source order (fix_unwrap_or.py lines 9-89). -/
def PATTERNS : List Rule :=
  [Rule.tryExists,
   Rule.lit ".unwrap_or(0)" ".map_or(0, |v| v)",
   Rule.lit ".unwrap_or(false)" ".map_or(false, |v| v)",
   Rule.lit ".unwrap_or(\"\")" ".map_or(\"\", |v| v)",
   Rule.lit ".unwrap_or(\"unknown\")" ".map_or(\"unknown\", |v| v)",
   Rule.lit ".unwrap_or(\"open\")" ".map_or(\"open\", |v| v)",
   Rule.lit ".unwrap_or(\"-\")" ".map_or(\"-\", |v| v)",
   Rule.lit ".unwrap_or(60)" ".map_or(60, |v| v)",
   Rule.lit ".unwrap_or(300)" ".map_or(300, |v| v)",
   Rule.lit ".unwrap_or(30)" ".map_or(30, |v| v)",
   Rule.lit ".unwrap_or(1)" ".map_or(1, |v| v)",
   Rule.lit ".unwrap_or(i64::MAX)" ".map_or(i64::MAX, |v| v)",
   Rule.lit ".unwrap_or(u64::MAX)" ".map_or(u64::MAX, |v| v)",
   Rule.lit ".await.unwrap_or_default()" ".await.map_or_else(|_| Vec::new(), |v| v)",
   Rule.getRange]

/-- Attempt to match a rule's pattern at the start of `s`.  On success
return the replacement text and the number of characters consumed.

* `lit pat repl`: the literal `pat` must be a prefix of `s` and — the
  `(?![.])` lookahead — the next character must not be `'.'`.  (Every
  literal pattern of the catalogue is nonempty; the emptiness test only
  keeps the embedding total.)
* `tryExists`: `\.try_exists\(` then the greedy `([^)]+)` — which is
  forced to be the maximal run of non-`')'` characters, since on
  backtracking the mandatory `\)` would face a non-`')'` character —
  then `\)\.await\.unwrap_or\(false\)`, with no lookahead.
* `getRange`: `\.get\(` then the maximal nonempty digit run, `\.\.`,
  another maximal nonempty digit run, then `\)\.unwrap_or\(&\[\]\)`,
  with no lookahead. -/
def matchAt : Rule → List Char → Option (List Char × Nat)
  | Rule.lit pat repl, s =>
    let p := pat.toList
    if p.isPrefixOf s && !p.isEmpty then
      if (s.drop p.length).head? == some '.' then none
      else some (repl.toList, p.length)
    else none
  | Rule.tryExists, s =>
    if tryHead.isPrefixOf s then
      let s1 := s.drop tryHead.length
      let g := s1.takeWhile (fun c => !(c == ')'))
      if g.isEmpty then none
      else
        let s2 := s1.drop g.length
        if tryTail.isPrefixOf s2 then
          some (tryRepl g, tryHead.length + g.length + tryTail.length)
        else none
    else none
  | Rule.getRange, s =>
    if getHead.isPrefixOf s then
      let s1 := s.drop getHead.length
      let a := s1.takeWhile Char.isDigit
      if a.isEmpty then none
      else
        let s2 := s1.drop a.length
        if dotDot.isPrefixOf s2 then
          let s3 := s2.drop 2
          let b := s3.takeWhile Char.isDigit
          if b.isEmpty then none
          else
            let s4 := s3.drop b.length
            if getTail.isPrefixOf s4 then
              some (getRepl a b, getHead.length + a.length + 2 + b.length + getTail.length)
            else none
        else none
    else none

/-- Python scan of `re.sub` with `fuel` steps: at each position try the
pattern; on a match emit the replacement and continue after the match,
otherwise copy one character and advance. -/
def subAllF (r : Rule) : Nat → List Char → List Char
  | 0, s => s
  | _ + 1, [] => []
  | fuel + 1, c :: cs =>
    match matchAt r (c :: cs) with
    | some (re, n) => re ++ subAllF r fuel ((c :: cs).drop n)
    | none => c :: subAllF r fuel cs

/-- `re.sub(pattern, replacement, s)`: every rule consumes at least one
character on a match, so `s.length` steps always suffice. -/
def subAll (r : Rule) (s : List Char) : List Char := subAllF r s.length s

/-- Python scan of `len(re.findall(pattern, s))` with `fuel` steps. -/
def countF (r : Rule) : Nat → List Char → Nat
  | 0, _ => 0
  | _ + 1, [] => 0
  | fuel + 1, c :: cs =>
    match matchAt r (c :: cs) with
    | some (_, n) => 1 + countF r fuel ((c :: cs).drop n)
    | none => countF r fuel cs

/-- `len(re.findall(pattern, s))`: the number of non-overlapping
matches found by the scan. -/
def countMatches (r : Rule) (s : List Char) : Nat := countF r s.length s

/-- Python scan of `re.finditer(pattern, s)` with `fuel` steps: `pos`
is the absolute offset of the current suffix; each element records
`(match.start(), match.end(), replacement(match))`. -/
def iterF (r : Rule) : Nat → Nat → List Char → List (Nat × Nat × List Char)
  | 0, _, _ => []
  | _ + 1, _, [] => []
  | fuel + 1, pos, c :: cs =>
    match matchAt r (c :: cs) with
    | some (re, n) => (pos, pos + n, re) :: iterF r fuel (pos + n) ((c :: cs).drop n)
    | none => iterF r fuel (pos + 1) cs

/-- `list(re.finditer(pattern, s))` together with each match's
prepared replacement. -/
def findIter (r : Rule) (s : List Char) : List (Nat × Nat × List Char) :=
  iterF r s.length 0 s

/-- One iteration of the callback loop
`content = content[:match.start()] + new_text + content[match.end():]`. -/
def spliceStep (acc : List Char) (m : Nat × Nat × List Char) : List Char :=
  acc.take m.1 ++ m.2.2 ++ acc.drop m.2.1

/-- `for match in reversed(matches): ...` — the splices are applied to
the running content from the last found match down to the first. -/
def applyMatchesRev (ms : List (Nat × Nat × List Char)) (c : List Char) : List Char :=
  ms.reverse.foldl spliceStep c

/-- The `is_function` branch of `fix_file` (lines 105-112): find all
matches, apply them in reverse order, add one fix per match. -/
def applyFunc (r : Rule) (c : List Char) : List Char × Nat :=
  (applyMatchesRev (findIter r c) c, (findIter r c).length)

/-- The body of the rule loop of `fix_file` (lines 98-118), acting on
the pair (current content, accumulated fix count).  For a template rule
the added count is `len(re.findall(pattern, original_content))` — note:
counted on `orig`, the file's original text, not on the current
content. -/
def applyRule (orig : List Char) (st : List Char × Nat) (r : Rule) : List Char × Nat :=
  if r.isFunction then
    ((applyFunc r st.1).1, st.2 + (applyFunc r st.1).2)
  else
    if subAll r st.1 ≠ st.1 then (subAll r st.1, st.2 + countMatches r orig)
    else st

/-- The full rule loop of `fix_file`: fold the catalogue over the
original content with a zero fix count. -/
def fixText (content : List Char) : List Char × Nat :=
  PATTERNS.foldl (applyRule content) (content, 0)

/-- Outcome of `fix_file` on one file: the content left on disk,
whether the file was rewritten (and the `Fixed N violations` line
printed), and the returned fix count. -/
structure FixResult where
  content : List Char
  wrote : Bool
  returned : Nat
deriving DecidableEq

/-- `fix_file` (lines 92-124): write and report only if the final text
differs from the original; otherwise return 0. -/
def fix_file (content : List Char) : FixResult :=
  if (fixText content).1 ≠ content then
    ⟨(fixText content).1, true, (fixText content).2⟩
  else ⟨content, false, 0⟩

/-- Observable outcome of `main` (lines 127-138): the exit status, the
`Error: ... does not exist` line, and the printed total. -/
structure RunResult where
  exitCode : Nat
  errorPrinted : Bool
  totalPrinted : Option Nat

/-- The script's `main`, with the filesystem abstracted: `srcDirExists` is whether
the hardcoded root `crates/zjj/src` exists, `files` the contents of the
`*.rs` files found by `rglob` in traversal order.  A missing root
prints the error and exits with status 1; otherwise every file is fixed,
the total is printed and the script terminates normally (status 0). -/
def mainRun (srcDirExists : Bool) (files : List (List Char)) : RunResult :=
  if srcDirExists then
    ⟨0, false, some ((files.map (fun f => (fix_file f).returned)).sum)⟩
  else ⟨1, true, none⟩

/-- The new text a single rule produces from the current content: the
substitution scan for a template rule, the reverse-order splice loop
for the callback rule. -/
def ruleText (r : Rule) (c : List Char) : List Char :=
  if r.isFunction then (applyFunc r c).1 else subAll r c

/-- The fix count one rule adds, following the code: the callback rule
adds one fix per match found in the current content; a template rule
whose substitution changes the current content adds
`len(re.findall(pattern, original_content))` — the match count taken on
the file's original text `orig` — and otherwise adds nothing. -/
def ruleFixCount (orig c : List Char) (r : Rule) : Nat :=
  if r.isFunction then (findIter r c).length
  else if subAll r c ≠ c then countMatches r orig else 0

/-- Total fix count of a rule list described rule by rule via
`ruleFixCount`, threading the text with `ruleText`. -/
def specFixes (orig : List Char) : List Rule → List Char → Nat
  | [], _ => 0
  | r :: rs, c => ruleFixCount orig c r + specFixes orig rs (ruleText r c)

/-- The replacement text of every rule of the catalogue (the parametric
rules instantiated with representative captures: `path` for `([^)]+)`,
`0` and `16` for the digit groups). -/
def replacementForms : List (List Char) :=
  PATTERNS.map (fun r =>
    match r with
    | Rule.lit _ repl => repl.toList
    | Rule.tryExists => tryRepl "path".toList
    | Rule.getRange => getRepl "0".toList "16".toList)

/-- `SpanRewrite r s t`: `t` is obtained from `s` by replacing some
pairwise disjoint substrings of `s`, each of which is a match of rule
`r` (at its position in `s`), by that rule's replacement text, keeping
every character outside the replaced spans unchanged. -/
inductive SpanRewrite (r : Rule) : List Char → List Char → Prop where
  | nil : SpanRewrite r [] []
  | keep (c : Char) {s t : List Char} :
      SpanRewrite r s t → SpanRewrite r (c :: s) (c :: t)
  | rep {s t re : List Char} {n : Nat} :
      matchAt r s = some (re, n) →
      SpanRewrite r (s.drop n) t → SpanRewrite r s (re ++ t)

/-- `RewriteSeq rs a b`: `b` is obtained from `a` by one `SpanRewrite`
step per rule of `rs`, in order. -/
inductive RewriteSeq : List Rule → List Char → List Char → Prop where
  | nil (c : List Char) : RewriteSeq [] c c
  | cons {r : Rule} {rs : List Rule} {a b c : List Char} :
      SpanRewrite r a b → RewriteSeq rs b c → RewriteSeq (r :: rs) a c

/-- The example file content of the specification's scenario. -/
def lineC1 : List Char := "let x = opt.unwrap_or(0);\n".toList

/-- A text on which a second run of the fixer still fixes: the
`.unwrap_or(0)` occurrence is guarded by the `'.'` of the following
`.get(1..2).unwrap_or(&[])` match, whose replacement starts with a
brace. -/
def cexC2 : List Char := ".unwrap_or(0).get(1..2).unwrap_or(&[])".toList

/-- A text on which the findall-on-original count of the third rule
differs from its match count on the text as it stands when the rule
runs: the first rule has rewritten the occurrence of
`.unwrap_or(false)` inside the `try_exists` chain by then. -/
def cexC3 : List Char :=
  ".try_exists(a).await.unwrap_or(false) x.unwrap_or(false)".toList

/-- The guarded literal rule `\.unwrap_or\(false\)(?![.])`, the third
rule of the catalogue. -/
def ruleUnwrapFalse : Rule := Rule.lit ".unwrap_or(false)" ".map_or(false, |v| v)"

/-! Basic facts about the matcher and the scanners. -/

lemma isPrefixOf_append_self (l t : List Char) : l.isPrefixOf (l ++ t) = true := by
  induction l with
  | nil => simp [List.isPrefixOf]
  | cons a l ih => rw [List.cons_append, List.isPrefixOf_cons₂_self]; exact ih

lemma isPrefixOf_length_le (l s : List Char) (h : l.isPrefixOf s = true) :
    l.length ≤ s.length := by
  induction l generalizing s with
  | nil => simp
  | cons a l ih =>
    cases s with
    | nil => cases h
    | cons b bs =>
      rw [List.isPrefixOf_cons₂, Bool.and_eq_true] at h
      have := ih bs h.2
      simp only [List.length_cons]
      omega

lemma takeWhile_len_le (p : Char → Bool) (l : List Char) :
    (l.takeWhile p).length ≤ l.length :=
  (List.takeWhile_sublist p).length_le

lemma takeWhile_append_eq (p : Char → Bool) (xs : List Char) (y : Char) (ys : List Char)
    (hx : ∀ c ∈ xs, p c = true) (hy : p y = false) :
    (xs ++ y :: ys).takeWhile p = xs := by
  induction xs with
  | nil => simp [List.takeWhile_cons, hy]
  | cons a l ih =>
    have ha : p a = true := hx a (by simp)
    simp only [List.cons_append, List.takeWhile_cons, ha, if_true]
    rw [ih (fun c hc => hx c (by simp [hc]))]

lemma matchAt_nil (r : Rule) : matchAt r [] = none := by
  cases r with
  | tryExists => rfl
  | getRange => rfl
  | lit pat repl =>
    simp only [matchAt]
    cases hp : pat.toList with
    | nil => simp
    | cons a l => simp [List.isPrefixOf]

lemma matchAt_pos {r : Rule} {s re : List Char} {n : Nat}
    (h : matchAt r s = some (re, n)) : 0 < n := by
  cases r with
  | lit pat repl =>
    simp only [matchAt] at h
    split_ifs at h with h1 h2
    all_goals first
      | exact Option.noConfusion h
      | (simp only [Option.some.injEq, Prod.mk.injEq] at h
         obtain ⟨-, hn⟩ := h
         subst hn
         rw [Bool.and_eq_true, Bool.not_eq_true'] at h1
         exact List.length_pos.mpr (List.isEmpty_eq_false.mp h1.2))
  | tryExists =>
    simp only [matchAt] at h
    split_ifs at h with h1 h2 h3
    all_goals first
      | exact Option.noConfusion h
      | (simp only [Option.some.injEq, Prod.mk.injEq] at h
         obtain ⟨-, hn⟩ := h
         have h12 : tryHead.length = 12 := rfl
         omega)
  | getRange =>
    simp only [matchAt] at h
    split_ifs at h with h1 h2 h3 h4 h5
    all_goals first
      | exact Option.noConfusion h
      | (simp only [Option.some.injEq, Prod.mk.injEq] at h
         obtain ⟨-, hn⟩ := h
         have h5' : getHead.length = 5 := rfl
         omega)

lemma matchAt_le {r : Rule} {s re : List Char} {n : Nat}
    (h : matchAt r s = some (re, n)) : n ≤ s.length := by
  cases r with
  | lit pat repl =>
    simp only [matchAt] at h
    split_ifs at h with h1 h2
    all_goals first
      | exact Option.noConfusion h
      | (simp only [Option.some.injEq, Prod.mk.injEq] at h
         obtain ⟨-, hn⟩ := h
         subst hn
         rw [Bool.and_eq_true] at h1
         exact isPrefixOf_length_le _ _ h1.1)
  | tryExists =>
    simp only [matchAt] at h
    split_ifs at h with h1 h2 h3
    all_goals first
      | exact Option.noConfusion h
      | (simp only [Option.some.injEq, Prod.mk.injEq] at h
         obtain ⟨-, hn⟩ := h
         have l1 : tryHead.length ≤ s.length := isPrefixOf_length_le _ _ h1
         have l2 : ((s.drop tryHead.length).takeWhile (fun c => !(c == ')'))).length ≤
             s.length - tryHead.length := by
           have := takeWhile_len_le (fun c => !(c == ')')) (s.drop tryHead.length)
           simpa using this
         have l3 := isPrefixOf_length_le _ _ h3
         simp only [List.length_drop] at l3
         omega)
  | getRange =>
    simp only [matchAt] at h
    split_ifs at h with h1 h2 h3 h4 h5
    all_goals first
      | exact Option.noConfusion h
      | (simp only [Option.some.injEq, Prod.mk.injEq] at h
         obtain ⟨-, hn⟩ := h
         have l1 : getHead.length ≤ s.length := isPrefixOf_length_le _ _ h1
         have l2 : ((s.drop getHead.length).takeWhile Char.isDigit).length ≤
             s.length - getHead.length := by
           have := takeWhile_len_le Char.isDigit (s.drop getHead.length)
           simpa using this
         have l3 := isPrefixOf_length_le _ _ h3
         simp only [List.length_drop] at l3
         have l4 := takeWhile_len_le Char.isDigit
           (((s.drop getHead.length).drop
             ((s.drop getHead.length).takeWhile Char.isDigit).length).drop 2)
         simp only [List.length_drop] at l4
         have l5 := isPrefixOf_length_le _ _ h5
         simp only [List.length_drop] at l5
         have hd : dotDot.length = 2 := rfl
         omega)

lemma subAllF_congr (r : Rule) :
    ∀ f1 f2 s, s.length ≤ f1 → s.length ≤ f2 → subAllF r f1 s = subAllF r f2 s := by
  intro f1
  induction f1 with
  | zero =>
    intro f2 s h1 h2
    have hs : s = [] := List.eq_nil_of_length_eq_zero (Nat.le_zero.mp h1)
    subst hs
    cases f2 <;> rfl
  | succ f1 ih =>
    intro f2 s h1 h2
    cases s with
    | nil => cases f2 <;> rfl
    | cons c cs =>
      cases f2 with
      | zero => simp at h2
      | succ f2 =>
        cases hm : matchAt r (c :: cs) with
        | none =>
          have hc1 : cs.length ≤ f1 := by simp at h1; omega
          have hc2 : cs.length ≤ f2 := by simp at h2; omega
          simp only [subAllF, hm]
          rw [ih f2 cs hc1 hc2]
        | some x =>
          obtain ⟨re, n⟩ := x
          have hn := matchAt_pos hm
          have hd1 : ((c :: cs).drop n).length ≤ f1 := by
            simp only [List.length_drop, List.length_cons]
            simp only [List.length_cons] at h1
            omega
          have hd2 : ((c :: cs).drop n).length ≤ f2 := by
            simp only [List.length_drop, List.length_cons]
            simp only [List.length_cons] at h2
            omega
          simp only [subAllF, hm]
          rw [ih f2 _ hd1 hd2]

lemma subAll_nil (r : Rule) : subAll r [] = [] := rfl

lemma subAll_nomatch {r : Rule} {c : Char} {cs : List Char}
    (h : matchAt r (c :: cs) = none) : subAll r (c :: cs) = c :: subAll r cs := by
  unfold subAll
  simp only [List.length_cons, subAllF, h]

lemma subAll_match {r : Rule} {c : Char} {cs re : List Char} {n : Nat}
    (h : matchAt r (c :: cs) = some (re, n)) :
    subAll r (c :: cs) = re ++ subAll r ((c :: cs).drop n) := by
  have hn := matchAt_pos h
  unfold subAll
  simp only [List.length_cons, subAllF, h]
  congr 1
  exact subAllF_congr r cs.length ((c :: cs).drop n).length _
    (by simp only [List.length_drop, List.length_cons]; omega) (le_refl _)

lemma subAll_match' {r : Rule} {s re : List Char} {n : Nat}
    (h : matchAt r s = some (re, n)) : subAll r s = re ++ subAll r (s.drop n) := by
  cases s with
  | nil => rw [matchAt_nil] at h; cases h
  | cons c cs => exact subAll_match h

/-! A text in which a rule finds no match is left untouched by that
rule's substitution, and its match list is empty. -/

lemma countF_zero_subAllF (r : Rule) :
    ∀ fuel s, s.length ≤ fuel → countF r fuel s = 0 → subAllF r fuel s = s := by
  intro fuel
  induction fuel with
  | zero => intro s h1 h2; rfl
  | succ fuel ih =>
    intro s h1 h2
    cases s with
    | nil => rfl
    | cons c cs =>
      cases hm : matchAt r (c :: cs) with
      | some x =>
        obtain ⟨re, n⟩ := x
        simp only [countF, hm] at h2
        omega
      | none =>
        simp only [countF, hm] at h2
        have hc : cs.length ≤ fuel := by simp at h1; omega
        simp only [subAllF, hm]
        rw [ih cs hc h2]

lemma count_zero_subAll {r : Rule} {s : List Char}
    (h : countMatches r s = 0) : subAll r s = s :=
  countF_zero_subAllF r s.length s (le_refl _) h

lemma countF_zero_iterF (r : Rule) :
    ∀ fuel pos s, countF r fuel s = 0 → iterF r fuel pos s = [] := by
  intro fuel
  induction fuel with
  | zero => intro pos s h; rfl
  | succ fuel ih =>
    intro pos s h
    cases s with
    | nil => rfl
    | cons c cs =>
      cases hm : matchAt r (c :: cs) with
      | some x =>
        obtain ⟨re, n⟩ := x
        simp only [countF, hm] at h
        omega
      | none =>
        simp only [countF, hm] at h
        simp only [iterF, hm]
        exact ih (pos + 1) cs h

lemma count_zero_findIter {r : Rule} {s : List Char}
    (h : countMatches r s = 0) : findIter r s = [] :=
  countF_zero_iterF r s.length 0 s h

/-! The reverse-order splice loop of the callback branch computes the
same text as the one-pass substitution scan: processing the matches
from the highest start offset down keeps every pending span valid. -/

lemma applyMatchesRev_nil (c : List Char) : applyMatchesRev [] c = c := rfl

lemma applyMatchesRev_cons (m : Nat × Nat × List Char)
    (ms : List (Nat × Nat × List Char)) (c : List Char) :
    applyMatchesRev (m :: ms) c = spliceStep (applyMatchesRev ms c) m := by
  simp [applyMatchesRev, List.reverse_cons, List.foldl_append]

lemma applyMatchesRev_iterF (r : Rule) :
    ∀ fuel s pre, s.length ≤ fuel →
      applyMatchesRev (iterF r fuel pre.length s) (pre ++ s) = pre ++ subAll r s := by
  intro fuel
  induction fuel with
  | zero =>
    intro s pre h1
    have hs : s = [] := List.eq_nil_of_length_eq_zero (Nat.le_zero.mp h1)
    subst hs
    simp [applyMatchesRev_nil, subAll_nil, iterF]
  | succ fuel ih =>
    intro s pre h1
    cases s with
    | nil => simp [iterF, applyMatchesRev_nil, subAll_nil]
    | cons c cs =>
      cases hm : matchAt r (c :: cs) with
      | none =>
        simp only [iterF, hm]
        rw [show pre.length + 1 = (pre ++ [c]).length by simp]
        rw [List.append_cons pre c cs]
        have hcs : cs.length ≤ fuel := by simp at h1; omega
        rw [ih cs (pre ++ [c]) hcs]
        rw [subAll_nomatch hm]
        simp [List.append_assoc]
      | some x =>
        obtain ⟨re, n⟩ := x
        have hn := matchAt_pos hm
        have hle := matchAt_le hm
        have hdl : ((c :: cs).drop n).length ≤ fuel := by
          simp only [List.length_drop, List.length_cons]
          simp only [List.length_cons] at h1
          omega
        have hle' : n ≤ cs.length + 1 := by simpa using hle
        have hlen : (pre ++ (c :: cs).take n).length = pre.length + n := by
          simp only [List.length_append, List.length_take, List.length_cons]
          omega
        simp only [iterF, hm]
        rw [applyMatchesRev_cons]
        rw [show pre ++ c :: cs = (pre ++ (c :: cs).take n) ++ (c :: cs).drop n by
          rw [List.append_assoc, List.take_append_drop]]
        rw [show pre.length + n = (pre ++ (c :: cs).take n).length from hlen.symm]
        rw [ih ((c :: cs).drop n) (pre ++ (c :: cs).take n) hdl]
        dsimp only [spliceStep]
        rw [List.drop_left, List.append_assoc pre, List.take_left]
        rw [subAll_match hm]
        simp [List.append_assoc]

lemma applyFunc_text (r : Rule) (c : List Char) : (applyFunc r c).1 = subAll r c := by
  have h := applyMatchesRev_iterF r c.length c [] (le_refl _)
  simpa [applyFunc, findIter] using h

/-! The scan returns its matches in strictly increasing positions, so
`reversed(matches)` runs from the highest start offset to the lowest. -/

lemma iterF_lb (r : Rule) :
    ∀ fuel pos s, ∀ m ∈ iterF r fuel pos s, pos ≤ m.1 := by
  intro fuel
  induction fuel with
  | zero => intro pos s m hm; simp [iterF] at hm
  | succ fuel ih =>
    intro pos s m hm
    cases s with
    | nil => simp [iterF] at hm
    | cons c cs =>
      cases hx : matchAt r (c :: cs) with
      | some x =>
        obtain ⟨re, n⟩ := x
        simp only [iterF, hx, List.mem_cons] at hm
        rcases hm with h | h
        · subst h; exact Nat.le_refl pos
        · have := ih (pos + n) ((c :: cs).drop n) m h
          omega
      | none =>
        simp only [iterF, hx] at hm
        have := ih (pos + 1) cs m hm
        omega

lemma iterF_sorted (r : Rule) :
    ∀ fuel pos s, List.Pairwise (fun a b => a.1 < b.1) (iterF r fuel pos s) := by
  intro fuel
  induction fuel with
  | zero => intro pos s; exact List.Pairwise.nil
  | succ fuel ih =>
    intro pos s
    cases s with
    | nil => exact List.Pairwise.nil
    | cons c cs =>
      cases hx : matchAt r (c :: cs) with
      | some x =>
        obtain ⟨re, n⟩ := x
        have hn := matchAt_pos hx
        simp only [iterF, hx]
        refine List.Pairwise.cons ?_ (ih (pos + n) _)
        intro m hm
        have := iterF_lb r fuel (pos + n) ((c :: cs).drop n) m hm
        show pos < m.1
        omega
      | none =>
        simp only [iterF, hx]
        exact ih (pos + 1) cs

/-! The `(?![.])` guard: a guarded literal rule never matches at an
occurrence that is immediately followed by `'.'`, and the substitution
scan carries such an occurrence through unchanged. -/

lemma scan_append (r : Rule) (xs ys : List Char)
    (h : ∀ i, i < xs.length → matchAt r (xs.drop i ++ ys) = none) :
    subAll r (xs ++ ys) = xs ++ subAll r ys := by
  induction xs with
  | nil => simp
  | cons x xs ih =>
    have h0 : matchAt r (x :: (xs ++ ys)) = none := by
      have := h 0 (by simp)
      simpa using this
    rw [List.cons_append, subAll_nomatch h0]
    rw [ih (fun i hi => by simpa using h (i + 1) (by simpa using Nat.succ_lt_succ hi))]
    rfl

lemma matchAt_lit_none_of_prefix_fail (pat repl : String) (s : List Char)
    (h : pat.toList.isPrefixOf s = false) :
    matchAt (Rule.lit pat repl) s = none := by
  simp only [matchAt, h, Bool.false_and]
  rfl

lemma matchAt_lit_none_of_head_ne (pat repl : String) (c : Char) (s : List Char)
    (hp : pat.toList.head? = some '.') (hc : c ≠ '.') :
    matchAt (Rule.lit pat repl) (c :: s) = none := by
  apply matchAt_lit_none_of_prefix_fail
  cases hl : pat.toList with
  | nil => rw [hl] at hp; cases hp
  | cons a tl =>
    rw [hl] at hp
    simp only [List.head?_cons, Option.some.injEq] at hp
    subst hp
    rw [List.isPrefixOf_cons₂]
    have hb : ('.' == c) = false := beq_eq_false_iff_ne.mpr (fun he => hc he.symm)
    simp [hb]

lemma guardNone (pat repl : String) (post : List Char) :
    matchAt (Rule.lit pat repl) (pat.toList ++ '.' :: post) = none := by
  simp only [matchAt]
  rw [isPrefixOf_append_self, List.drop_left]
  simp

lemma guardedFront (pat repl : String)
    (h1 : pat.toList.head? = some '.') (h2 : '.' ∉ pat.toList.drop 1) (post : List Char) :
    subAll (Rule.lit pat repl) (pat.toList ++ '.' :: post) =
      pat.toList ++ subAll (Rule.lit pat repl) ('.' :: post) := by
  apply scan_append
  intro i hi
  cases i with
  | zero => simpa using guardNone pat repl post
  | succ j =>
    have hj : j + 1 < pat.toList.length := hi
    have hdrop : pat.toList.drop (j + 1) = pat.toList[j + 1] :: pat.toList.drop (j + 2) :=
      List.drop_eq_getElem_cons hj
    rw [hdrop, List.cons_append]
    apply matchAt_lit_none_of_head_ne pat repl _ _ h1
    intro he
    apply h2
    have hmem : pat.toList[j + 1] ∈ pat.toList.drop 1 := by
      apply List.drop_subset_drop_left pat.toList (show 1 ≤ j + 1 by omega)
      rw [hdrop]
      exact List.mem_cons_self _ _
    exact he ▸ hmem

lemma guardedFront14 (post : List Char) :
    subAll (Rule.lit ".await.unwrap_or_default()" ".await.map_or_else(|_| Vec::new(), |v| v)")
        (".await.unwrap_or_default()".toList ++ '.' :: post) =
      ".await.unwrap_or_default()".toList ++
        subAll (Rule.lit ".await.unwrap_or_default()" ".await.map_or_else(|_| Vec::new(), |v| v)")
          ('.' :: post) := by
  apply scan_append
  intro i hi
  have hi26 : i < 26 := by simpa using hi
  interval_cases i
  · simpa using guardNone ".await.unwrap_or_default()" ".await.map_or_else(|_| Vec::new(), |v| v)"
      post
  all_goals exact matchAt_lit_none_of_prefix_fail _ _ _ rfl

/-! The rule loop, rule by rule. -/

lemma applyRule_eq (orig c : List Char) (f : Nat) (r : Rule) :
    applyRule orig (c, f) r = (ruleText r c, f + ruleFixCount orig c r) := by
  by_cases hf : r.isFunction
  · simp [applyRule, ruleText, ruleFixCount, hf, applyFunc]
  · by_cases hc : subAll r c ≠ c
    · simp [applyRule, ruleText, ruleFixCount, hf, hc]
    · rw [not_ne_iff] at hc
      simp [applyRule, ruleText, ruleFixCount, hf, hc]

lemma foldl_applyRule (orig : List Char) :
    ∀ rs (c : List Char) (f : Nat),
      rs.foldl (applyRule orig) (c, f) =
        (rs.foldl (fun t r => ruleText r t) c, f + specFixes orig rs c) := by
  intro rs
  induction rs with
  | nil => intro c f; simp [specFixes]
  | cons r rs ih =>
    intro c f
    simp only [List.foldl_cons, applyRule_eq, specFixes]
    rw [ih]
    simp [Nat.add_assoc]

lemma fixText_eq (c : List Char) :
    fixText c = (PATTERNS.foldl (fun t r => ruleText r t) c, specFixes c PATTERNS c) := by
  unfold fixText
  rw [foldl_applyRule]
  simp

lemma fix_file_content (c : List Char) : (fix_file c).content = (fixText c).1 := by
  rcases eq_or_ne ((fixText c).1) c with hc | hc
  · have h2 : fix_file c = ⟨c, false, 0⟩ := by
      unfold fix_file
      exact if_neg (by simp [hc])
    rw [h2, hc]
  · have h2 : fix_file c = ⟨(fixText c).1, true, (fixText c).2⟩ := by
      unfold fix_file
      exact if_pos hc
    rw [h2]

/-! Every step of the loop is a span rewrite: the content changes only
inside matched spans. -/

lemma spanRewrite_subAllAux (r : Rule) :
    ∀ fuel s, s.length ≤ fuel → SpanRewrite r s (subAll r s) := by
  intro fuel
  induction fuel with
  | zero =>
    intro s h
    have hs : s = [] := List.eq_nil_of_length_eq_zero (Nat.le_zero.mp h)
    subst hs
    exact SpanRewrite.nil
  | succ fuel ih =>
    intro s h
    cases s with
    | nil => exact SpanRewrite.nil
    | cons c cs =>
      cases hm : matchAt r (c :: cs) with
      | some x =>
        obtain ⟨re, n⟩ := x
        rw [subAll_match hm]
        refine SpanRewrite.rep hm (ih _ ?_)
        have hn := matchAt_pos hm
        simp only [List.length_drop, List.length_cons]
        simp only [List.length_cons] at h
        omega
      | none =>
        rw [subAll_nomatch hm]
        refine SpanRewrite.keep c (ih cs ?_)
        simp only [List.length_cons] at h
        omega

lemma spanRewrite_subAll (r : Rule) (s : List Char) : SpanRewrite r s (subAll r s) :=
  spanRewrite_subAllAux r s.length s (le_refl _)

lemma spanRewrite_ruleText (r : Rule) (c : List Char) :
    SpanRewrite r c (ruleText r c) := by
  by_cases hf : r.isFunction
  · rw [ruleText, if_pos hf, applyFunc_text]
    exact spanRewrite_subAll r c
  · rw [ruleText, if_neg hf]
    exact spanRewrite_subAll r c

lemma rewriteSeq_fold (orig : List Char) :
    ∀ rs (c : List Char) (f : Nat),
      RewriteSeq rs c ((rs.foldl (applyRule orig) (c, f)).1) := by
  intro rs
  induction rs with
  | nil => intro c f; exact RewriteSeq.nil c
  | cons r rs ih =>
    intro c f
    simp only [List.foldl_cons, applyRule_eq]
    exact RewriteSeq.cons (spanRewrite_ruleText r c) (ih (ruleText r c) _)

/-! The claims. -/

/-- Claim C1, counterexample: the claim quantifies over every file
containing the line `let x = opt.unwrap_or(0);` and asserts a fix count
of 1, but a file containing that line twice contains the line and both
occurrences are rewritten, so the reported and returned count is 2. -/
theorem claimC1_counterexample :
    (∃ pre post, lineC1 ++ lineC1 = pre ++ lineC1 ++ post) ∧
    (fix_file (lineC1 ++ lineC1)).returned = 2 ∧
    (fix_file (lineC1 ++ lineC1)).returned ≠ 1 :=
  ⟨⟨[], lineC1, rfl⟩, by decide, by decide⟩

/-- Claim C1, amended: a file whose content is exactly the line
`let x = opt.unwrap_or(0);` is rewritten by one pass of the fixer to
`let x = opt.map_or(0, |v| v);`, the file is written, and the fix
count reported and returned for it is 1. -/
theorem claimC1_theorem :
    fix_file lineC1 = ⟨"let x = opt.map_or(0, |v| v);\n".toList, true, 1⟩ := by
  decide

/-- Claim C2, counterexample: the full catalogue is not idempotent.  On
`.unwrap_or(0).get(1..2).unwrap_or(&[])` the first application rewrites
only the callback match (the `.unwrap_or(0)` occurrence is guarded by
the following dot), and the callback replacement starts with a brace,
so the second application finds the occurrence unguarded, counts one
fix and changes the text again. -/
theorem claimC2_counterexample :
    (fixText (fixText cexC2).1).2 = 1 ∧
    (fixText (fixText cexC2).1).1 ≠ (fixText cexC2).1 :=
  ⟨by decide, by decide⟩

/-- Claim C2, amended: no replacement text produced by any rule of the
catalogue itself matches any rule's pattern — a full catalogue pass
over each rule's replacement form finds no match, changes nothing and
counts zero fixes.  (Idempotence on arbitrary texts nevertheless fails,
because a rewrite can strip the `'.'` that guarded an earlier
occurrence; see the counterexample.) -/
theorem claimC2_theorem :
    ∀ f ∈ replacementForms,
      (∀ r ∈ PATTERNS, countMatches r f = 0) ∧ fixText f = (f, 0) := by
  decide

/-- Claim C2, witness: the replacement form `.map_or(0, |v| v)`. -/
theorem claimC2_witness :
    ".map_or(0, |v| v)".toList ∈ replacementForms ∧
    ((∀ r ∈ PATTERNS, countMatches r ".map_or(0, |v| v)".toList = 0) ∧
      fixText ".map_or(0, |v| v)".toList = (".map_or(0, |v| v)".toList, 0)) :=
  ⟨by decide, claimC2_theorem _ (by decide)⟩

/-- Claim C3, counterexample: on `cexC3` the first rule rewrites the
`try_exists` chain (1 fix), the second rule is idle, and when the third
rule (`.unwrap_or(false)(?![.])`) runs there is exactly one match in
the text as it stands — yet the loop adds 2, the number of matches in
the ORIGINAL text, bringing the total to 3 instead of 2. -/
theorem claimC3_counterexample :
    PATTERNS[2]? = some ruleUnwrapFalse ∧
    ((PATTERNS.take 2).foldl (applyRule cexC3) (cexC3, 0)).2 = 1 ∧
    ((PATTERNS.take 3).foldl (applyRule cexC3) (cexC3, 0)).2 = 3 ∧
    countMatches ruleUnwrapFalse
      (((PATTERNS.take 2).foldl (applyRule cexC3) (cexC3, 0)).1) = 1 :=
  ⟨by decide, by decide, by decide, by decide⟩

/-- Claim C3, amended: for every rule in catalogue order, the callback
rule adds one fix per match found in the text as it stands, while a
template rule whose substitution changes the text as it stands adds the
number of non-overlapping matches of its pattern in the ORIGINAL file
content (`re.findall(pattern, original_content)`), a new version of the
text being produced after each rule (`ruleText`). -/
theorem claimC3_theorem (c : List Char) :
    (fixText c).2 = specFixes c PATTERNS c := by
  rw [fixText_eq]

/-- Claim C5: for the callback rule, the matches returned by the scan
have strictly increasing start offsets (so the loop over
`reversed(matches)` splices from the highest start offset down to the
lowest), one fix is counted per match, and the spliced result equals
the one-pass substitution of every match at its original span — i.e.
every match is rewritten exactly at its place, the earlier offsets
staying valid throughout. -/
theorem claimC5 (c : List Char) :
    (applyFunc Rule.getRange c).1 = subAll Rule.getRange c ∧
    (applyFunc Rule.getRange c).2 = (findIter Rule.getRange c).length ∧
    List.Pairwise (fun a b => a.1 < b.1) (findIter Rule.getRange c) :=
  ⟨applyFunc_text _ _, rfl, iterF_sorted _ _ _ _⟩

/-- Claim C6: a file whose content matches no rule's pattern is not
written (its content is returned byte-identical), no `Fixed` line is
printed for it, and the returned fix count is 0. -/
theorem claimC6 (c : List Char) (h : ∀ r ∈ PATTERNS, countMatches r c = 0) :
    fix_file c = ⟨c, false, 0⟩ := by
  have hfold : ∀ rs : List Rule, (∀ r ∈ rs, countMatches r c = 0) →
      ∀ f : Nat, rs.foldl (applyRule c) (c, f) = (c, f) := by
    intro rs
    induction rs with
    | nil => intro _ f; rfl
    | cons r rs ih =>
      intro hh f
      have hr := hh r (List.mem_cons_self r rs)
      have hsub : subAll r c = c := count_zero_subAll hr
      have hit : findIter r c = [] := count_zero_findIter hr
      simp only [List.foldl_cons]
      have hstep : applyRule c (c, f) r = (c, f) := by
        by_cases hf : r.isFunction
        · simp [applyRule, hf, applyFunc, hit, applyMatchesRev_nil]
        · simp [applyRule, hf, hsub]
      rw [hstep]
      exact ih (fun r' hr' => hh r' (List.mem_cons_of_mem _ hr')) f
  have hft : fixText c = (c, 0) := hfold PATTERNS h 0
  unfold fix_file
  rw [hft]
  simp

/-- Claim C6, witness: the pattern-free file `fn main() {}`. -/
theorem claimC6_witness :
    (∀ r ∈ PATTERNS, countMatches r "fn main() \x7b\x7d".toList = 0) ∧
    fix_file "fn main() \x7b\x7d".toList =
      ⟨"fn main() \x7b\x7d".toList, false, 0⟩ :=
  ⟨by decide, claimC6 _ (by decide)⟩

/-- Claim C7: the content the fixer leaves on disk is obtained from the
input by one span rewrite per catalogue rule, in order — every change
is inside a substring matched by some rule during processing, and every
character outside the matched spans is carried through unchanged. -/
theorem claimC7 (c : List Char) : RewriteSeq PATTERNS c ((fix_file c).content) := by
  rw [fix_file_content]
  exact rewriteSeq_fold c PATTERNS c 0

/-- Claim C8: the entry point exits with status 0 exactly on normal
completion (the root directory exists — even when the printed total is
0), and exits with status 1 after printing the error message exactly
when the hardcoded root directory does not exist. -/
theorem claimC8 (d : Bool) (files : List (List Char)) :
    ((mainRun d files).exitCode = 0 ↔ d = true) ∧
    (((mainRun d files).exitCode = 1 ∧ (mainRun d files).errorPrinted = true) ↔ d = false) ∧
    (d = true → (mainRun d files).totalPrinted =
      some ((files.map (fun f => (fix_file f).returned)).sum)) := by
  cases d <;> simp [mainRun]

/-- Claim C8, witness: a missing root directory, and a normal zero-fix
run over no files exiting 0 with total 0. -/
theorem claimC8_witness :
    (((mainRun false []).exitCode = 0 ↔ false = true) ∧
      (((mainRun false []).exitCode = 1 ∧ (mainRun false []).errorPrinted = true) ↔
        false = false) ∧
      (false = true → (mainRun false []).totalPrinted =
        some ((([] : List (List Char)).map (fun f => (fix_file f).returned)).sum))) ∧
    (mainRun true []).totalPrinted = some 0 ∧ (mainRun true []).exitCode = 0 :=
  ⟨claimC8 false [], by decide, by decide⟩

/-- Claim C4: every catalogue rule whose pattern carries the
chained-continuation guard `(?![.])` — i.e. every literal rule — does
not match an occurrence of its anti-pattern that is immediately
followed by a `'.'`, and its substitution scan carries such a leading
occurrence through to the output unrewritten. -/
theorem claimC4 (r : Rule) (pat repl : String) (hr : r ∈ PATTERNS)
    (he : r = Rule.lit pat repl) (post : List Char) :
    matchAt r (pat.toList ++ '.' :: post) = none ∧
    subAll r (pat.toList ++ '.' :: post) = pat.toList ++ subAll r ('.' :: post) := by
  subst he
  refine ⟨guardNone pat repl post, ?_⟩
  simp only [PATTERNS, List.mem_cons, List.not_mem_nil, or_false] at hr
  rcases hr with h|h|h|h|h|h|h|h|h|h|h|h|h|h|h
  all_goals first
    | exact Rule.noConfusion h
    | (injection h with h1 h2
       subst h1
       subst h2
       first
         | exact guardedFront _ _ (by decide) (by decide) post
         | exact guardedFront14 post)

/-- Claim C4, witness: the guarded rule `\.unwrap_or\(0\)(?![.])` on an
occurrence followed by a dot. -/
theorem claimC4_witness :
    Rule.lit ".unwrap_or(0)" ".map_or(0, |v| v)" ∈ PATTERNS ∧
    (matchAt (Rule.lit ".unwrap_or(0)" ".map_or(0, |v| v)")
        (".unwrap_or(0)".toList ++ '.' :: ([] : List Char)) = none ∧
      subAll (Rule.lit ".unwrap_or(0)" ".map_or(0, |v| v)")
          (".unwrap_or(0)".toList ++ '.' :: ([] : List Char)) =
        ".unwrap_or(0)".toList ++
          subAll (Rule.lit ".unwrap_or(0)" ".map_or(0, |v| v)") ('.' :: ([] : List Char))) :=
  ⟨by decide, claimC4 _ ".unwrap_or(0)" ".map_or(0, |v| v)" (by decide) rfl []⟩

/-- Claim C9: the first rule of the catalogue (the `try_exists` rule)
carries no chained-continuation guard: an occurrence of its pattern is
matched and rewritten even when it is immediately followed by a `'.'`
continuing the call chain. -/
theorem claimC9 (g rest : List Char) (hne : g ≠ []) (hg : ∀ c ∈ g, c ≠ ')') :
    PATTERNS.head? = some Rule.tryExists ∧
    matchAt Rule.tryExists (tryHead ++ (g ++ (tryTail ++ '.' :: rest))) =
      some (tryRepl g, tryHead.length + g.length + tryTail.length) ∧
    subAll Rule.tryExists (tryHead ++ (g ++ (tryTail ++ '.' :: rest))) =
      tryRepl g ++ subAll Rule.tryExists ('.' :: rest) := by
  have e1 : tryHead.isPrefixOf (tryHead ++ (g ++ (tryTail ++ '.' :: rest))) = true :=
    isPrefixOf_append_self _ _
  have e2 : (tryHead ++ (g ++ (tryTail ++ '.' :: rest))).drop tryHead.length =
      g ++ (tryTail ++ '.' :: rest) := List.drop_left _ _
  have e3 : (g ++ (tryTail ++ '.' :: rest)).takeWhile (fun c => !(c == ')')) = g := by
    rw [show tryTail ++ '.' :: rest =
        ')' :: (".await.unwrap_or(false)".toList ++ '.' :: rest) from rfl]
    exact takeWhile_append_eq _ g ')' _
      (fun c hc => by simp [beq_eq_false_iff_ne.mpr (hg c hc)]) (by decide)
  have e4 : g.isEmpty = false := by
    cases g with
    | nil => exact absurd rfl hne
    | cons x l => rfl
  have e5 : (g ++ (tryTail ++ '.' :: rest)).drop g.length = tryTail ++ '.' :: rest :=
    List.drop_left _ _
  have e6 : tryTail.isPrefixOf (tryTail ++ '.' :: rest) = true := isPrefixOf_append_self _ _
  have hmatch : matchAt Rule.tryExists (tryHead ++ (g ++ (tryTail ++ '.' :: rest))) =
      some (tryRepl g, tryHead.length + g.length + tryTail.length) := by
    simp only [matchAt, e1, e2, e3, e4, e5, e6]
    simp
  have hdrop : (tryHead ++ (g ++ (tryTail ++ '.' :: rest))).drop
      (tryHead.length + g.length + tryTail.length) = '.' :: rest := by
    rw [show tryHead ++ (g ++ (tryTail ++ '.' :: rest)) =
        (tryHead ++ g ++ tryTail) ++ '.' :: rest by simp [List.append_assoc]]
    rw [List.drop_left' (by rw [List.length_append, List.length_append] :
      (tryHead ++ g ++ tryTail).length = tryHead.length + g.length + tryTail.length)]
  exact ⟨rfl, hmatch, by rw [subAll_match' hmatch, hdrop]⟩

/-- Claim C9, witness: `g = "a"`, nothing after the trailing dot. -/
theorem claimC9_witness :
    ((['a'] : List Char) ≠ [] ∧ ∀ c ∈ (['a'] : List Char), c ≠ ')') ∧
    (PATTERNS.head? = some Rule.tryExists ∧
      matchAt Rule.tryExists (tryHead ++ (['a'] ++ (tryTail ++ '.' :: ([] : List Char)))) =
        some (tryRepl ['a'], tryHead.length + (['a'] : List Char).length + tryTail.length) ∧
      subAll Rule.tryExists (tryHead ++ (['a'] ++ (tryTail ++ '.' :: ([] : List Char)))) =
        tryRepl ['a'] ++ subAll Rule.tryExists ('.' :: ([] : List Char))) :=
  ⟨⟨by decide, by decide⟩, claimC9 ['a'] [] (by decide) (by decide)⟩

/-- Claim C10: a match of the callback rule with digit groups `a` and
`b` is replaced by exactly
`{match .get(a..b) { Some(slice) => slice, None => &[], }` — the
rendered f-string, which opens two braces, closes only one, and does
not reattach the matched call to its receiver. -/
theorem claimC10 (a b rest : List Char)
    (ha : a ≠ []) (ha2 : ∀ c ∈ a, c.isDigit = true)
    (hb : b ≠ []) (hb2 : ∀ c ∈ b, c.isDigit = true) :
    matchAt Rule.getRange (getHead ++ (a ++ (dotDot ++ (b ++ (getTail ++ rest))))) =
      some (getRepl a b, getHead.length + a.length + 2 + b.length + getTail.length) ∧
    getRepl a b =
      "\x7bmatch .get(".toList ++ a ++ "..".toList ++ b ++
        ") \x7b Some(slice) => slice, None => &[], \x7d".toList ∧
    (getRepl a b).count '\x7b' = 2 ∧ (getRepl a b).count '\x7d' = 1 := by
  have e1 : getHead.isPrefixOf (getHead ++ (a ++ (dotDot ++ (b ++ (getTail ++ rest))))) =
      true := isPrefixOf_append_self _ _
  have e2 : (getHead ++ (a ++ (dotDot ++ (b ++ (getTail ++ rest))))).drop getHead.length =
      a ++ (dotDot ++ (b ++ (getTail ++ rest))) := List.drop_left _ _
  have e3 : (a ++ (dotDot ++ (b ++ (getTail ++ rest)))).takeWhile Char.isDigit = a := by
    rw [show dotDot ++ (b ++ (getTail ++ rest)) =
        '.' :: ('.' :: (b ++ (getTail ++ rest))) from rfl]
    exact takeWhile_append_eq _ a '.' _ (fun c hc => ha2 c hc) (by decide)
  have e4 : a.isEmpty = false := by
    cases a with
    | nil => exact absurd rfl ha
    | cons x l => rfl
  have e5 : (a ++ (dotDot ++ (b ++ (getTail ++ rest)))).drop a.length =
      dotDot ++ (b ++ (getTail ++ rest)) := List.drop_left _ _
  have e6 : dotDot.isPrefixOf (dotDot ++ (b ++ (getTail ++ rest))) = true :=
    isPrefixOf_append_self _ _
  have e7 : (dotDot ++ (b ++ (getTail ++ rest))).drop 2 = b ++ (getTail ++ rest) :=
    List.drop_left' rfl
  have e8 : (b ++ (getTail ++ rest)).takeWhile Char.isDigit = b := by
    rw [show getTail ++ rest = ')' :: (".unwrap_or(&[])".toList ++ rest) from rfl]
    exact takeWhile_append_eq _ b ')' _ (fun c hc => hb2 c hc) (by decide)
  have e9 : b.isEmpty = false := by
    cases b with
    | nil => exact absurd rfl hb
    | cons x l => rfl
  have e10 : (b ++ (getTail ++ rest)).drop b.length = getTail ++ rest :=
    List.drop_left _ _
  have e11 : getTail.isPrefixOf (getTail ++ rest) = true := isPrefixOf_append_self _ _
  have hca : List.count '\x7b' a = 0 :=
    List.count_eq_zero.mpr (fun hmem => absurd (ha2 _ hmem) (by decide))
  have hcb : List.count '\x7b' b = 0 :=
    List.count_eq_zero.mpr (fun hmem => absurd (hb2 _ hmem) (by decide))
  have hda : List.count '\x7d' a = 0 :=
    List.count_eq_zero.mpr (fun hmem => absurd (ha2 _ hmem) (by decide))
  have hdb : List.count '\x7d' b = 0 :=
    List.count_eq_zero.mpr (fun hmem => absurd (hb2 _ hmem) (by decide))
  refine ⟨?_, rfl, ?_, ?_⟩
  · simp only [matchAt, e1, e2, e3, e4, e5, e6, e7, e8, e9, e10, e11]
    simp
  · simp only [getRepl, List.count_append, hca, hcb]
    decide
  · simp only [getRepl, List.count_append, hda, hdb]
    decide

/-- Claim C10, witness: the bounds `1..2` with nothing following. -/
theorem claimC10_witness :
    ((['1'] : List Char) ≠ [] ∧ (∀ c ∈ (['1'] : List Char), c.isDigit = true) ∧
      (['2'] : List Char) ≠ [] ∧ ∀ c ∈ (['2'] : List Char), c.isDigit = true) ∧
    (matchAt Rule.getRange
        (getHead ++ (['1'] ++ (dotDot ++ (['2'] ++ (getTail ++ ([] : List Char)))))) =
      some (getRepl ['1'] ['2'],
        getHead.length + (['1'] : List Char).length + 2 +
          (['2'] : List Char).length + getTail.length) ∧
      getRepl ['1'] ['2'] =
        "\x7bmatch .get(".toList ++ ['1'] ++ "..".toList ++ ['2'] ++
          ") \x7b Some(slice) => slice, None => &[], \x7d".toList ∧
      (getRepl ['1'] ['2']).count '\x7b' = 2 ∧ (getRepl ['1'] ['2']).count '\x7d' = 1) :=
  ⟨⟨by decide, by decide, by decide, by decide⟩,
    claimC10 ['1'] ['2'] [] (by decide) (by decide) (by decide) (by decide)⟩
